import Mathlib

/-!
Verification development for the `indexer` repository: a booru-style
metadata harvester (post/tag ingestion streams over a shared checkpoint
store) together with an inverted-index query engine.

The Rust sources are embedded shallowly:

* `HashMap` values become association lists (`alookup` / `ainsert`,
  replace-on-insert, which matches the map semantics up to the map's
  unobservable internal ordering);
* `RoaringBitmap` (a set of `u32` post ids iterated in ascending order)
  becomes its canonical form, a strictly ascending `List ℕ` (`bmInsert` /
  `bmInter`), with `u32` casts written as `% 4294967296` where the source
  casts;
* `sort_by_key` (a stable sort) becomes `List.insertionSort`, which is
  stable and therefore extensionally the same function;
* the asynchronous streams become recursive functions over an explicit
  list of request outcomes (one list entry per issued request, holding
  the result the retrying request layer eventually delivered:
  `some page` for success, `none` for a failure after retries);
* file I/O in `StateManager::new` becomes an explicit `FileReadResult`
  describing what reading the checkpoint file produced.

Wire-payload fields that the indexed subsystems never read (scores,
owners, flags, urls, ...) are elided from the record models; the fields
that are read (`id`, `tags`, `name`, `count` fields, `md5`, `image`,
`created_at`) are kept.  Timestamps are modelled as `ℕ` ticks and the
16 raw md5 bytes by the hex string they decode from (an injective
re-coding for the valid inputs the source accepts).
-/

/-- Lookup in an association list; models `HashMap::get`. -/
def alookup {α β : Type} [DecidableEq α] : List (α × β) → α → Option β
  | [], _ => none
  | (k, v) :: rest, a => if k = a then some v else alookup rest a

/-- Insert (replace-on-collision) in an association list; models `HashMap::insert`. -/
def ainsert {α β : Type} [DecidableEq α] : List (α × β) → α → β → List (α × β)
  | [], k, v => [(k, v)]
  | (k', v') :: rest, k, v =>
    if k' = k then (k, v) :: rest else (k', v') :: ainsert rest k v

/-- Insertion into a bitset in canonical (strictly ascending) form; models
`RoaringBitmap::insert`, which is a no-op on an already-present member. -/
def bmInsert (x : Nat) : List Nat → List Nat
  | [] => [x]
  | y :: rest =>
    if x < y then x :: y :: rest
    else if x = y then y :: rest
    else y :: bmInsert x rest

/-- Intersection of bitsets; models `RoaringBitmap::bitand_assign`. -/
def bmInter (a b : List Nat) : List Nat := a.filter fun x => x ∈ b

/-- The `u32` value count: casts `x as u32` are modelled as `x % u32Mod`. -/
def u32Mod : Nat := 4294967296

/-- Largest `u32` value, used by the query as the default frequency. -/
def u32Max : Nat := 4294967295

/-- Post rating enum from `models/mod.rs`. -/
inductive Rating : Type
  | Safe
  | Sensitive
  | Questionable
  | Explicit
deriving DecidableEq, Repr

/-- Tag type enum from `models/mod.rs`. -/
inductive TagType : Type
  | Artist
  | Character
  | Copyright
  | Metadata
  | Descriptive
  | Other (n : Nat)
deriving DecidableEq, Repr

/-- Conversion `From<u32> for TagType` from `models/mod.rs`. -/
def TagType.ofNat : Nat → TagType
  | 0 => .Descriptive
  | 1 => .Artist
  | 3 => .Copyright
  | 4 => .Character
  | 5 => .Metadata
  | v => .Other v

/-- File-extension enum from `models/mod.rs`. -/
inductive Extension : Type
  | Png
  | Jpg
  | Jpeg
  | Gif
  | Mov
  | Other (s : String)
deriving DecidableEq, Repr

/-- Conversion `From<String> for Extension` from `models/mod.rs`. -/
def Extension.fromStr : String → Extension
  | "png" => .Png
  | "jpg" => .Jpg
  | "jpeg" => .Jpeg
  | "gif" => .Gif
  | "mov" => .Mov
  | v => .Other v

/-- Normalized tag record (`models/mod.rs::Tag`). -/
structure Tag : Type where
  id : Nat
  name : String
  count : Nat
  tag_type : TagType
  ambiguous : Bool
deriving DecidableEq, Repr

/-- Normalized post record (`models/mod.rs::Post`), restricted to the fields
the indexed subsystems read; the remaining payload fields (score, owner,
urls, flags, ...) are never consulted by the index or the scrapers. -/
structure Post : Type where
  id : Nat
  created_at : Nat
  md5 : String
  image : String
  rating : Rating
  tags : List String
deriving DecidableEq, Repr

/-- Iterator `Post::split_tags` (the stored tag list, one name per entry). -/
def Post.split_tags (p : Post) : List String := p.tags

/-- The characters of `image` after its last dot, as produced by
`image.rsplit_once('.')`; `none` when `image` has no dot. -/
def afterLastDot : List Char → Option (List Char)
  | [] => none
  | c :: rest =>
    match afterLastDot rest with
    | some r => some r
    | none => if c = '.' then some rest else none

/-- File extension of an image file name; the source unwraps the
`rsplit_once` result, the model totalizes the missing-dot case to `""`. -/
def extOf (image : String) : String := ((afterLastDot image.toList).getD []).asString

/-- Compact post summary (`models/mod.rs::PostSimplified`). -/
structure PostSimplified : Type where
  md5 : String
  extension : Extension
  id : Nat
  created_at : Nat
deriving DecidableEq, Repr

/-- Conversion `From<Post> for PostSimplified`: keeps the md5 digest (the
source hex-decodes it to 16 raw bytes, an injective re-coding), parses the
extension after the image name's last dot, and truncates the id to `u32`. -/
def Post.toSimplified (p : Post) : PostSimplified :=
  { md5 := p.md5
    extension := Extension.fromStr (extOf p.image)
    id := p.id % u32Mod
    created_at := p.created_at }

/-- The inverted index (`index.rs::Index`): four co-owned maps. -/
structure Index : Type where
  tag_str_to_id : List (String × Nat)
  tag_id_to_post_id : List (Nat × List Nat)
  post_id_to_post : List (Nat × PostSimplified)
  tag_id_freq : List (Nat × Nat)
deriving DecidableEq

/-- The value `Index::default()`: all four maps empty. -/
def Index.empty : Index := ⟨[], [], [], []⟩

/-- Operation `Index::insert_tag`: store the case-folded tag name against the
truncated tag id. -/
def Index.insert_tag (idx : Index) (tag : Tag) : Index :=
  { idx with tag_str_to_id := ainsert idx.tag_str_to_id tag.name.toLower (tag.id % u32Mod) }

/-- Loop body of `Index::insert_post` for one tag name carried by the post:
resolve the case-folded name; on a miss skip the name; on a hit add `pid` to
the tag's bitset (creating it when absent, as `entry().or_default()` does)
and bump the tag's frequency counter exactly when the bitset gained a new
member (`bitmap.insert` returned `true`). -/
def Index.insertPostTag (idx : Index) (pid : Nat) (tag : String) : Index :=
  match alookup idx.tag_str_to_id tag.toLower with
  | none => idx
  | some tag_id =>
    let bitmap := (alookup idx.tag_id_to_post_id tag_id).getD []
    let idx' := { idx with
      tag_id_to_post_id := ainsert idx.tag_id_to_post_id tag_id (bmInsert pid bitmap) }
    if pid ∈ bitmap then idx'
    else { idx' with
      tag_id_freq :=
        ainsert idx'.tag_id_freq tag_id ((alookup idx'.tag_id_freq tag_id).getD 0 + 1) }

/-- Operation `Index::insert_post`: run the per-tag loop for every tag name
the post carries, then store the post's summary under its truncated id. -/
def Index.insert_post (idx : Index) (p : Post) : Index :=
  let idx₁ := p.split_tags.foldl (fun i tg => i.insertPostTag (p.id % u32Mod) tg) idx
  { idx₁ with post_id_to_post := ainsert idx₁.post_id_to_post (p.id % u32Mod) p.toSimplified }

/-- Step 1 of `Index::get_images_all_tags_lazy`: resolve each requested name
to `(tag id, stored frequency)`, where a missing frequency defaults to
`u32::MAX` and unresolvable names are dropped by the `filter_map`. -/
def Index.tagData (idx : Index) (tags : List String) : List (Nat × Nat) :=
  tags.filterMap fun tag =>
    (alookup idx.tag_str_to_id tag).map fun tag_id =>
      (tag_id, (alookup idx.tag_id_freq tag_id).getD u32Max)

/-- Comparison used by `sort_by_key(|(_, freq)| *freq)`. -/
def byFreq (a b : Nat × Nat) : Prop := a.2 ≤ b.2

instance : DecidableRel byFreq := fun a b => Nat.decLe a.2 b.2

instance : IsTotal (Nat × Nat) byFreq := ⟨fun a b => Nat.le_total a.2 b.2⟩

instance : IsTrans (Nat × Nat) byFreq := ⟨fun _ _ _ => Nat.le_trans⟩

/-- Step 2 of the query: the resolved tag data stably sorted ascending by
frequency, as `sort_by_key` (a stable sort) produces. -/
def Index.sortedTagData (idx : Index) (tags : List String) : List (Nat × Nat) :=
  (idx.tagData tags).insertionSort byFreq

/-- The bitset stored for a tag id, empty when the map holds none. -/
def Index.bitsetOf (idx : Index) (tid : Nat) : List Nat :=
  (alookup idx.tag_id_to_post_id tid).getD []

/-- Step 3 of the query: successive intersection over the remaining sorted
tag data, short-circuiting to `none` when a tag id has no stored bitset or
the running intersection becomes empty. -/
def Index.intersectLoop (idx : Index) : List Nat → List (Nat × Nat) → Option (List Nat)
  | acc, [] => some acc
  | acc, (tid, _) :: rest =>
    match alookup idx.tag_id_to_post_id tid with
    | none => none
    | some s =>
      let acc' := bmInter acc s
      if acc' = [] then none else idx.intersectLoop acc' rest

/-- Query `Index::get_images_all_tags_lazy`: resolve and sort the requested
names, seed with the rarest tag's bitset, intersect with the rest, and map
the surviving post ids (the bitset iterates in its canonical ascending
order) to their stored summaries, dropping ids with no summary as the
`filter_map` does.  `none` models the `None` returns (no resolvable tag,
missing bitset, or an empty running intersection). -/
def Index.get_images_all_tags_lazy (idx : Index) (tags : List String) :
    Option (List PostSimplified) :=
  match idx.sortedTagData tags with
  | [] => none
  | (t0, _) :: rest =>
    match alookup idx.tag_id_to_post_id t0 with
    | none => none
    | some seed =>
      match idx.intersectLoop seed rest with
      | none => none
      | some result =>
        some (result.filterMap fun id => alookup idx.post_id_to_post id)

/-- Failure record enum from `scraper/state_manager.rs::ScrapeError`:
a failed post id-range `[start, stop)` or a failed tag page at an
`after_id` cursor. -/
inductive ScrapeError : Type
  | Post (start stop : Nat)
  | Tag (afterId : Nat)
deriving DecidableEq, Repr

/-- Checkpoint value from `scraper/state_manager.rs::ScrapeState`. -/
structure ScrapeState : Type where
  last_post_id : Nat
  last_tag_id : Nat
  errors : List ScrapeError
deriving DecidableEq, Repr

/-- Outcome of reading the checkpoint file in `StateManager::new`:
the open call fails (`missing`), the open succeeds but the JSON payload
does not parse (`corrupt`), or it parses to a checkpoint (`parsed`). -/
inductive FileReadResult : Type
  | missing
  | corrupt
  | parsed (s : ScrapeState)
deriving DecidableEq, Repr

/-- Constructor `StateManager::new`: a failed open falls back to the
zero-valued checkpoint (after a logged warning); a successful open feeds
the file to the JSON parser, whose error is propagated with `?`. -/
def StateManager.new : FileReadResult → Except Unit ScrapeState
  | .missing => .ok { last_post_id := 0, last_tag_id := 0, errors := [] }
  | .corrupt => .error ()
  | .parsed s => .ok s

/-- Page attributes from `api/models.rs::ApiAttributes`. -/
structure ApiAttributes : Type where
  limit : Nat
  offset : Nat
  count : Nat
deriving DecidableEq, Repr

/-- Post page from `api/models.rs::ApiPostResponse`; the wire→domain record
conversion (`From<ApiPost> for Post`, adapter code out of the indexed
subsystems) is applied pointwise, so the page carries domain records. -/
structure ApiPostResponse : Type where
  attributes : ApiAttributes
  posts : List Post
deriving DecidableEq, Repr

/-- The `max_by_key(|post| post.id) ... unwrap_or(0)` computation of
`PostScraper::process_response`: the largest post id on the page, `0` for
an empty page. -/
def maxPostId (r : ApiPostResponse) : Nat := (r.posts.map Post.id).foldl max 0

/-- Tag page from `api/models.rs::ApiTagResponse` (its `@attributes` field
is never read by the tag scraper and is elided). -/
structure ApiTagResponse : Type where
  tags : List Tag
deriving DecidableEq, Repr

/-- The `max_by_key(|tag| tag.id) ... unwrap_or(0)` computation of
`TagScraper::run`: the largest tag id on the page, `0` for an empty page. -/
def maxTagId (r : ApiTagResponse) : Nat := (r.tags.map Tag.id).foldl max 0

/-- State visible to the post stream: the shared checkpoint plus the posts
appended so far to the durable post output log. -/
structure PostStreamState : Type where
  state : ScrapeState
  output : List Post
deriving DecidableEq, Repr

/-- Handler `PostScraper::process_response` for one completed window
`[start, stop)` whose request outcome is `some page` (success after
retries) or `none` (failure after retries): a page whose `count` attribute
is `0` is dropped without touching anything; otherwise the post cursor is
overwritten with the page's maximum id and the records are appended to the
log in reverse delivery order; a failed window appends its id-range to the
error log. -/
def PostScraper.process_response (st : PostStreamState) (id_range : Nat × Nat)
    (result : Option ApiPostResponse) : PostStreamState :=
  match result with
  | some r =>
    if r.attributes.count = 0 then st
    else
      { state := { st.state with last_post_id := maxPostId r }
        output := st.output ++ r.posts.reverse }
  | none =>
    { st with state :=
        { st.state with errors := st.state.errors ++ [.Post id_range.1 id_range.2] } }

/-- Driver loop of `PostScraper::run` in window-completion order: every
entry of the outcome list is one issued window request, and every entry is
processed — a failure never stops the fold.  Returns the final stream state
and the number of windows issued and processed. -/
def PostScraper.run (st : PostStreamState) :
    List ((Nat × Nat) × Option ApiPostResponse) → PostStreamState × Nat
  | [] => (st, 0)
  | (rng, res) :: rest =>
    let out := PostScraper.run (PostScraper.process_response st rng res) rest
    (out.1, out.2 + 1)

/-- The resume point of `PostScraper::run`: `last_post_id + 1`. -/
def PostScraper.startingId (s : ScrapeState) : Nat := s.last_post_id + 1

/-- The `n`-th window of `(starting_id..).step_by(100).map(|s| s..s + 100)`:
a half-open range starting at `startingId + 100 n` and spanning 100 ids. -/
def PostScraper.window (startingId n : Nat) : Nat × Nat :=
  (startingId + 100 * n, startingId + 100 * n + 100)

/-- State visible to the tag stream: the shared checkpoint plus the tags
appended so far to the durable tag output log. -/
structure TagStreamState : Type where
  state : ScrapeState
  output : List Tag
deriving DecidableEq, Repr

/-- One `unfold` step of `TagScraper::run` at cursor `afterId`: a
successful page overwrites the tag cursor with the page's maximum id,
appends the records in reverse delivery order and continues at that
maximum id (`Some(((), highest_id))`); a failed page appends
`ScrapeError::Tag(after_id)` and ends the stream (`None`). -/
def TagScraper.step (afterId : Nat) (st : TagStreamState)
    (response : Option ApiTagResponse) : TagStreamState × Option Nat :=
  match response with
  | some r =>
    ({ state := { st.state with last_tag_id := maxTagId r }
       output := st.output ++ r.tags.reverse }, some (maxTagId r))
  | none =>
    ({ st with state :=
         { st.state with errors := st.state.errors ++ [.Tag afterId] } }, none)

/-- Driver loop of `TagScraper::run`: consume request outcomes one at a
time from cursor `afterId`, stopping either when the oracle of outcomes is
exhausted or when a step ends the stream.  Returns the final stream state
and the number of requests issued. -/
def TagScraper.run (afterId : Nat) (st : TagStreamState) :
    List (Option ApiTagResponse) → TagStreamState × Nat
  | [] => (st, 0)
  | res :: rest =>
    match TagScraper.step afterId st res with
    | (st', some nextId) =>
      let out := TagScraper.run nextId st' rest
      (out.1, out.2 + 1)
    | (st', none) => (st', 1)

/-- The `after_id` cursor the tag stream holds after consuming a list of
successful pages, starting from cursor `a`. -/
def tagAfter (a : Nat) : List ApiTagResponse → Nat
  | [] => a
  | r :: rest => tagAfter (maxTagId r) rest

/-- Condition making the post oracle cursor-monotone: every successful page
with nonzero `count` observes a maximum id at least the cursor it
overwrites. -/
def postOracleMono (st : PostStreamState) :
    List ((Nat × Nat) × Option ApiPostResponse) → Bool
  | [] => true
  | (rng, res) :: rest =>
    (match res with
     | some r => decide (r.attributes.count = 0) || decide (st.state.last_post_id ≤ maxPostId r)
     | none => true)
    && postOracleMono (PostScraper.process_response st rng res) rest

/-- Condition making the tag oracle cursor-monotone: every successful page
observes a maximum id at least the cursor it overwrites. -/
def tagOracleMono : TagStreamState → List (Option ApiTagResponse) → Bool
  | _, [] => true
  | st, res :: rest =>
    match res with
    | some r =>
      decide (st.state.last_tag_id ≤ maxTagId r)
      && tagOracleMono (TagScraper.step 0 st (some r)).1 rest
    | none => true

/-- A post id lies in the bitset of every tag id that some requested name
resolves to: the membership target of a conjunctive (all-tags) query. -/
def Index.inAllTags (idx : Index) (tags : List String) (id : Nat) : Prop :=
  ∀ t ∈ tags, ∀ tid, alookup idx.tag_str_to_id t = some tid → id ∈ idx.bitsetOf tid

/-- A tag id's stored bitset exists and already absorbs the insertion of
`pid` (so re-inserting `pid` there is the identity). -/
def Index.insertStable (idx : Index) (pid tid : Nat) : Prop :=
  ∃ b, alookup idx.tag_id_to_post_id tid = some b ∧ bmInsert pid b = b

/-- Every post id present in any stored bitset has a stored summary, so the
lazy summary-mapping step of a query drops nothing. -/
def Index.postsCovered (idx : Index) : Prop :=
  ∀ tid b, alookup idx.tag_id_to_post_id tid = some b →
    ∀ pid ∈ b, (alookup idx.post_id_to_post pid).isSome = true

/-- One step of the offline index build of `Index::generate`: insert a tag
record or a post record. -/
inductive IndexOp : Type
  | tag (t : Tag)
  | post (p : Post)

/-- Apply one build step to the index. -/
def Index.applyOp (idx : Index) : IndexOp → Index
  | .tag t => idx.insert_tag t
  | .post p => idx.insert_post p

/-- Apply a sequence of build steps to the index. -/
def Index.applyOps (idx : Index) (ops : List IndexOp) : Index :=
  ops.foldl Index.applyOp idx

/-! ## Helper lemmas about the map and bitset embeddings -/

theorem alookup_ainsert_self {α β : Type} [DecidableEq α]
    (l : List (α × β)) (k : α) (v : β) :
    alookup (ainsert l k v) k = some v := by
  induction l with
  | nil => simp [alookup, ainsert]
  | cons hd tl ih =>
    obtain ⟨k', v'⟩ := hd
    by_cases hk : k' = k
    · simp [alookup, ainsert, hk]
    · simp [alookup, ainsert, hk, ih]

theorem alookup_ainsert_ne {α β : Type} [DecidableEq α]
    (l : List (α × β)) (k k' : α) (v : β) (h : k' ≠ k) :
    alookup (ainsert l k v) k' = alookup l k' := by
  induction l with
  | nil => simp [alookup, ainsert, Ne.symm h]
  | cons hd tl ih =>
    obtain ⟨k₀, v₀⟩ := hd
    by_cases hk : k₀ = k
    · subst hk
      simp [alookup, ainsert, Ne.symm h]
    · simp [alookup, ainsert, hk, ih]

theorem ainsert_lookup_eq {α β : Type} [DecidableEq α]
    (l : List (α × β)) (k : α) (v : β) (h : alookup l k = some v) :
    ainsert l k v = l := by
  induction l with
  | nil => simp [alookup] at h
  | cons hd tl ih =>
    obtain ⟨k₀, v₀⟩ := hd
    by_cases hk : k₀ = k
    · subst hk
      simp only [alookup, if_pos rfl] at h
      obtain rfl : v₀ = v := by simpa using h
      simp [ainsert]
    · simp only [alookup, if_neg hk] at h
      simp [ainsert, hk, ih h]

theorem mem_bmInsert (y x : Nat) (l : List Nat) :
    y ∈ bmInsert x l ↔ y = x ∨ y ∈ l := by
  induction l with
  | nil => simp [bmInsert]
  | cons z rest ih =>
    rcases Nat.lt_trichotomy x z with h1 | h1 | h1
    · simp [bmInsert, h1]
      try tauto
    · subst h1
      simp [bmInsert, Nat.lt_irrefl]
      try tauto
    · have hlt : ¬ x < z := by omega
      have hne : x ≠ z := by omega
      simp [bmInsert, hlt, hne, ih]
      try tauto

theorem bmInsert_mem_self (x : Nat) (l : List Nat) : x ∈ bmInsert x l :=
  (mem_bmInsert x x l).mpr (Or.inl rfl)

theorem bmInsert_idem (x : Nat) (l : List Nat) :
    bmInsert x (bmInsert x l) = bmInsert x l := by
  induction l with
  | nil => simp [bmInsert]
  | cons z rest ih =>
    by_cases h1 : x < z
    · simp [bmInsert, h1, lt_irrefl]
    · by_cases h2 : x = z
      · subst h2
        simp [bmInsert, h1]
      · simp [bmInsert, h1, h2, ih]

theorem mem_of_bmInsert_eq (x : Nat) (l : List Nat) (h : bmInsert x l = l) :
    x ∈ l := h ▸ bmInsert_mem_self x l

theorem mem_bmInter (y : Nat) (a b : List Nat) :
    y ∈ bmInter a b ↔ y ∈ a ∧ y ∈ b := by
  simp [bmInter]

/-! ## C2 — checkpoint load semantics -/

/-- C2 counterexample: loading from a file that opens but does not parse as
checkpoint JSON is not a success — `StateManager::new` propagates the parse
error (and the caller in `main.rs` unwraps it fatally), so the load does not
return a zero-valued checkpoint in the corrupt case. -/
theorem c2_corrupt_checkpoint_load_fails :
    StateManager.new FileReadResult.corrupt = Except.error () := rfl

/-- C2 (amended): loading the checkpoint store from a missing file is
non-fatal and yields the zero-valued checkpoint, but loading from a corrupt
file fails with the propagated parse error. -/
theorem c2_load_missing_zero_corrupt_error :
    StateManager.new FileReadResult.missing
      = Except.ok { last_post_id := 0, last_tag_id := 0, errors := [] }
    ∧ StateManager.new FileReadResult.corrupt = Except.error () :=
  ⟨rfl, rfl⟩

/-! ## C3 — empty post window leaves the cursor untouched -/

/-- C3 counterexample: a completed post window whose page carries zero
records but a nonzero `count` attribute does not leave the cursor unchanged
— processing overwrites the stored post cursor (here 7) with the maximum
over an empty page, which is 0. -/
theorem c3_zero_records_nonzero_count_moves_cursor :
    (PostScraper.process_response ⟨⟨7, 0, []⟩, []⟩ (8, 108)
        (some ⟨⟨100, 0, 5⟩, []⟩)).state.last_post_id = 0
    ∧ (⟨⟨100, 0, 5⟩, []⟩ : ApiPostResponse).posts = []
    ∧ (7 : Nat) ≠ 0 := by
  refine ⟨rfl, rfl, by decide⟩

/-- C3 (amended): for every completed post window whose page reports a
`count` attribute of zero, processing that window leaves the whole stream
state — in particular the stored post cursor — unchanged. -/
theorem c3_zero_count_page_no_progress (st : PostStreamState) (rng : Nat × Nat)
    (r : ApiPostResponse) (h : r.attributes.count = 0) :
    PostScraper.process_response st rng (some r) = st := by
  simp [PostScraper.process_response, h]

/-- C3 witness: the amended theorem applied at a concrete state and page. -/
theorem c3_zero_count_witness :
    PostScraper.process_response ⟨⟨7, 0, []⟩, []⟩ (8, 108)
      (some ⟨⟨100, 0, 0⟩, []⟩) = ⟨⟨7, 0, []⟩, []⟩ :=
  c3_zero_count_page_no_progress ⟨⟨7, 0, []⟩, []⟩ (8, 108) ⟨⟨100, 0, 0⟩, []⟩ rfl

/-! ## C9 — empty tag page resets the cursor to zero and continues -/

/-- C9: a successful tag page with an empty record list stores tag cursor 0
(the `unwrap_or(0)` maximum of an empty page) and the stream continues,
seeding its next request with `after_id = 0`; the run consumes the rest of
the outcomes from cursor 0. -/
theorem c9_empty_tag_page_resets_cursor (afterId : Nat) (st : TagStreamState)
    (r : ApiTagResponse) (rest : List (Option ApiTagResponse))
    (h : r.tags = []) :
    TagScraper.step afterId st (some r)
      = (⟨{ st.state with last_tag_id := 0 }, st.output⟩, some 0)
    ∧ TagScraper.run afterId st (some r :: rest)
      = ((TagScraper.run 0 ⟨{ st.state with last_tag_id := 0 }, st.output⟩ rest).1,
         (TagScraper.run 0 ⟨{ st.state with last_tag_id := 0 }, st.output⟩ rest).2 + 1) := by
  have hstep : TagScraper.step afterId st (some r)
      = (⟨{ st.state with last_tag_id := 0 }, st.output⟩, some 0) := by
    simp [TagScraper.step, maxTagId, h]
  refine ⟨hstep, ?_⟩
  simp [TagScraper.run, hstep]

/-- C9 witness: the theorem applied at a concrete cursor, state and page. -/
theorem c9_empty_tag_page_witness :
    TagScraper.step 3 ⟨⟨0, 5, []⟩, []⟩ (some ⟨[]⟩)
      = (⟨⟨0, 0, []⟩, []⟩, some 0)
    ∧ TagScraper.run 3 ⟨⟨0, 5, []⟩, []⟩ [some ⟨[]⟩]
      = ((TagScraper.run 0 ⟨⟨0, 0, []⟩, []⟩ []).1,
         (TagScraper.run 0 ⟨⟨0, 0, []⟩, []⟩ []).2 + 1) :=
  c9_empty_tag_page_resets_cursor 3 ⟨⟨0, 5, []⟩, []⟩ ⟨[]⟩ [] rfl

/-! ## C6 — window generation from a saved checkpoint -/

/-- C6: from a checkpoint with post cursor `C`, the post stream's window
sequence starts at `C + 1`, every window spans exactly 100 ids, consecutive
windows are contiguous, and every id from `C + 1` upward is covered by a
window. -/
theorem c6_window_generation (s : ScrapeState) (n id : Nat)
    (hid : s.last_post_id + 1 ≤ id) :
    (PostScraper.window (PostScraper.startingId s) n).1 = s.last_post_id + 1 + 100 * n
    ∧ (PostScraper.window (PostScraper.startingId s) n).2
        = (PostScraper.window (PostScraper.startingId s) n).1 + 100
    ∧ s.last_post_id + 1 ≤ (PostScraper.window (PostScraper.startingId s) n).1
    ∧ (PostScraper.window (PostScraper.startingId s) (n + 1)).1
        = (PostScraper.window (PostScraper.startingId s) n).2
    ∧ (PostScraper.window (PostScraper.startingId s)
        ((id - (s.last_post_id + 1)) / 100)).1 ≤ id
    ∧ id < (PostScraper.window (PostScraper.startingId s)
        ((id - (s.last_post_id + 1)) / 100)).2 := by
  simp [PostScraper.window, PostScraper.startingId]
  omega

/-- C6 witness: the theorem applied at a concrete checkpoint, window index
and post id. -/
theorem c6_window_generation_witness :
    (PostScraper.window (PostScraper.startingId ⟨40, 0, []⟩) 2).1 = 40 + 1 + 100 * 2
    ∧ (PostScraper.window (PostScraper.startingId ⟨40, 0, []⟩) 2).2
        = (PostScraper.window (PostScraper.startingId ⟨40, 0, []⟩) 2).1 + 100
    ∧ 40 + 1 ≤ (PostScraper.window (PostScraper.startingId ⟨40, 0, []⟩) 2).1
    ∧ (PostScraper.window (PostScraper.startingId ⟨40, 0, []⟩) (2 + 1)).1
        = (PostScraper.window (PostScraper.startingId ⟨40, 0, []⟩) 2).2
    ∧ (PostScraper.window (PostScraper.startingId ⟨40, 0, []⟩)
        ((257 - (40 + 1)) / 100)).1 ≤ 257
    ∧ 257 < (PostScraper.window (PostScraper.startingId ⟨40, 0, []⟩)
        ((257 - (40 + 1)) / 100)).2 :=
  c6_window_generation ⟨40, 0, []⟩ 2 257 (by decide)

/-! ## C5 — fault asymmetry between the two streams -/

theorem tagRun_stops_at_failure (pre : List ApiTagResponse) :
    ∀ (a : Nat) (st : TagStreamState) (rest : List (Option ApiTagResponse)),
    (TagScraper.run a st (pre.map some ++ none :: rest)).2 = pre.length + 1
    ∧ (TagScraper.run a st (pre.map some ++ none :: rest)).1.state.errors
        = st.state.errors ++ [ScrapeError.Tag (tagAfter a pre)] := by
  induction pre with
  | nil =>
    intro a st rest
    simp [TagScraper.run, TagScraper.step, tagAfter]
  | cons r pre ih =>
    intro a st rest
    simp only [List.map_cons, List.cons_append, TagScraper.run, TagScraper.step]
    refine ⟨?_, ?_⟩
    · simpa using (ih (maxTagId r) ⟨{ st.state with last_tag_id := maxTagId r },
        st.output ++ r.tags.reverse⟩ rest).1
    · simpa [tagAfter] using (ih (maxTagId r) ⟨{ st.state with last_tag_id := maxTagId r },
        st.output ++ r.tags.reverse⟩ rest).2

theorem postRun_count (l : List ((Nat × Nat) × Option ApiPostResponse)) :
    ∀ pst, (PostScraper.run pst l).2 = l.length := by
  induction l with
  | nil => intro pst; simp [PostScraper.run]
  | cons e rest ih =>
    intro pst
    obtain ⟨rng, res⟩ := e
    simp [PostScraper.run, ih]

/-- C5: fault handling is asymmetric.  After any run of successful tag
pages, a failing tag page appends `ScrapeError::Tag(after_id)` to the error
log and the tag stream issues no further requests (the request count stops
at the failure, whatever outcomes would have followed).  A failing post
window appends its id-range to the error log and does not stop the post
stream: every window of the outcome list, before and after the failure, is
issued and processed. -/
theorem c5_fault_asymmetry (a : Nat) (st : TagStreamState)
    (pre : List ApiTagResponse) (rest : List (Option ApiTagResponse))
    (pst : PostStreamState) (l1 l2 : List ((Nat × Nat) × Option ApiPostResponse))
    (rng : Nat × Nat) :
    (TagScraper.run a st (pre.map some ++ none :: rest)).2 = pre.length + 1
    ∧ (TagScraper.run a st (pre.map some ++ none :: rest)).1.state.errors
        = st.state.errors ++ [ScrapeError.Tag (tagAfter a pre)]
    ∧ (PostScraper.run pst (l1 ++ (rng, none) :: l2)).2 = l1.length + 1 + l2.length
    ∧ PostScraper.process_response pst rng none
        = { pst with state :=
              { pst.state with errors := pst.state.errors ++ [ScrapeError.Post rng.1 rng.2] } } := by
  refine ⟨(tagRun_stops_at_failure pre a st rest).1,
    (tagRun_stops_at_failure pre a st rest).2, ?_, rfl⟩
  simp [postRun_count]
  omega

/-! ## C4 — cursor monotonicity (corrected) -/

/-- C4 counterexample: a sequence of two successful tag page completions in
which the second (empty) page's update stores cursor 0 over the previously
stored cursor 5 — a successful update storing a smaller value than the one
it replaces. -/
theorem c4_successful_update_can_decrease_cursor :
    (TagScraper.step 0 ⟨⟨0, 0, []⟩, []⟩
        (some ⟨[⟨5, "x", 0, .Descriptive, false⟩]⟩)).1.state.last_tag_id = 5
    ∧ (TagScraper.run 0 ⟨⟨0, 0, []⟩, []⟩
        [some ⟨[⟨5, "x", 0, .Descriptive, false⟩]⟩, some ⟨[]⟩]).1.state.last_tag_id = 0
    ∧ (0 : Nat) < 5 := by
  refine ⟨rfl, rfl, by decide⟩

theorem postRun_mono (pl : List ((Nat × Nat) × Option ApiPostResponse)) :
    ∀ pst, postOracleMono pst pl = true →
    pst.state.last_post_id ≤ (PostScraper.run pst pl).1.state.last_post_id := by
  induction pl with
  | nil => intro pst _; simp [PostScraper.run]
  | cons e rest ih =>
    intro pst h
    obtain ⟨rng, res⟩ := e
    simp only [postOracleMono, Bool.and_eq_true] at h
    obtain ⟨h1, h2⟩ := h
    have hrun : (PostScraper.run pst ((rng, res) :: rest)).1
        = (PostScraper.run (PostScraper.process_response pst rng res) rest).1 := rfl
    rw [hrun]
    have hstep : pst.state.last_post_id
        ≤ (PostScraper.process_response pst rng res).state.last_post_id := by
      cases res with
      | none => simp [PostScraper.process_response]
      | some r =>
        by_cases hc : r.attributes.count = 0
        · simp [PostScraper.process_response, hc]
        · simp only [decide_eq_true_eq, Bool.or_eq_true] at h1
          rcases h1 with h1 | h1
          · exact absurd h1 hc
          · simpa [PostScraper.process_response, hc] using h1
    exact le_trans hstep (ih _ h2)

theorem tagRun_mono (tl : List (Option ApiTagResponse)) :
    ∀ (a : Nat) (tst : TagStreamState), tagOracleMono tst tl = true →
    tst.state.last_tag_id ≤ (TagScraper.run a tst tl).1.state.last_tag_id := by
  induction tl with
  | nil => intro a tst _; simp [TagScraper.run]
  | cons res rest ih =>
    intro a tst h
    cases res with
    | some r =>
      simp only [tagOracleMono, Bool.and_eq_true, decide_eq_true_eq] at h
      obtain ⟨h1, h2⟩ := h
      have hrun : (TagScraper.run a tst (some r :: rest)).1
          = (TagScraper.run (maxTagId r)
              ⟨{ tst.state with last_tag_id := maxTagId r },
               tst.output ++ r.tags.reverse⟩ rest).1 := rfl
      rw [hrun]
      exact le_trans h1 (ih (maxTagId r) _ h2)
    | none =>
      simp [TagScraper.run, TagScraper.step]

/-- C4 (amended): successful page completions overwrite the cursors with
each page's observed maximum id, so the cursors are monotonically
non-decreasing only under the proviso that every successful page observes a
maximum id at least the cursor value it replaces (for post pages, every
page whose `count` attribute is nonzero); without the proviso a successful
empty tag page stores 0 and can decrease the cursor. -/
theorem c4_cursors_monotone_under_monotone_pages
    (pst : PostStreamState) (pl : List ((Nat × Nat) × Option ApiPostResponse))
    (a : Nat) (tst : TagStreamState) (tl : List (Option ApiTagResponse))
    (hp : postOracleMono pst pl = true) (ht : tagOracleMono tst tl = true) :
    pst.state.last_post_id ≤ (PostScraper.run pst pl).1.state.last_post_id
    ∧ tst.state.last_tag_id ≤ (TagScraper.run a tst tl).1.state.last_tag_id :=
  ⟨postRun_mono pl pst hp, tagRun_mono tl a tst ht⟩

/-- C4 witness: the amended theorem applied to concrete monotone runs of
both streams. -/
theorem c4_cursors_monotone_witness :
    (⟨⟨3, 0, []⟩, []⟩ : PostStreamState).state.last_post_id
      ≤ (PostScraper.run ⟨⟨3, 0, []⟩, []⟩
          [((4, 104), some ⟨⟨100, 0, 2⟩,
            [⟨9, 0, "m", "i.png", .Safe, []⟩]⟩), ((104, 204), none)]).1.state.last_post_id
    ∧ (⟨⟨0, 2, []⟩, []⟩ : TagStreamState).state.last_tag_id
      ≤ (TagScraper.run 2 ⟨⟨0, 2, []⟩, []⟩
          [some ⟨[⟨6, "t", 0, .Descriptive, false⟩]⟩]).1.state.last_tag_id :=
  c4_cursors_monotone_under_monotone_pages ⟨⟨3, 0, []⟩, []⟩ _ 2 ⟨⟨0, 2, []⟩, []⟩ _
    (by decide) (by decide)

/-! ## C1 — unresolvable tag names in a query -/

theorem tagData_cons_none (idx : Index) (t : String) (ts : List String)
    (h : alookup idx.tag_str_to_id t = none) :
    idx.tagData (t :: ts) = idx.tagData ts := by
  simp [Index.tagData, h]

theorem tagData_cons_some (idx : Index) (t : String) (ts : List String) (tid : Nat)
    (h : alookup idx.tag_str_to_id t = some tid) :
    idx.tagData (t :: ts)
      = (tid, (alookup idx.tag_id_freq tid).getD u32Max) :: idx.tagData ts := by
  simp [Index.tagData, h]

theorem tagData_filter_resolvable (idx : Index) (tags : List String) :
    idx.tagData (tags.filter fun t => (alookup idx.tag_str_to_id t).isSome)
      = idx.tagData tags := by
  induction tags with
  | nil => rfl
  | cons t ts ih =>
    rw [List.filter_cons]
    cases h : alookup idx.tag_str_to_id t with
    | none =>
      simp only [h, Option.isSome_none, Bool.false_eq_true, if_false]
      rw [ih, tagData_cons_none idx t ts h]
    | some tid =>
      simp only [h, Option.isSome_some, if_true]
      rw [tagData_cons_some idx t (ts.filter fun t => (alookup idx.tag_str_to_id t).isSome) tid h,
        tagData_cons_some idx t ts tid h, ih]

/-- C1 counterexample: the requested name `"z"` is unresolvable in the
dictionary, yet the query does not yield an empty sequence — it returns the
partial result computed from the resolvable name `"a"` alone. -/
theorem c1_partial_result_counterexample :
    alookup (Index.mk [("a", 1)] [(1, [10])]
        [(10, ⟨"m", Extension.Png, 10, 0⟩)] [(1, 1)]).tag_str_to_id "z" = none
    ∧ (Index.mk [("a", 1)] [(1, [10])]
        [(10, ⟨"m", Extension.Png, 10, 0⟩)] [(1, 1)]).get_images_all_tags_lazy ["a", "z"]
        = some [⟨"m", Extension.Png, 10, 0⟩] := by
  refine ⟨by decide, by decide⟩

/-- C1 (amended): the query's `filter_map` silently drops unresolvable
names: the query yields no results only when every requested name is
unresolvable, and otherwise behaves exactly as if the unresolvable names
had not been requested (a partial result over the resolvable names). -/
theorem c1_unresolvable_names_dropped (idx : Index) (tags tags2 : List String)
    (h : ∀ t ∈ tags, alookup idx.tag_str_to_id t = none) :
    idx.get_images_all_tags_lazy tags = none
    ∧ idx.get_images_all_tags_lazy tags2
        = idx.get_images_all_tags_lazy
            (tags2.filter fun t => (alookup idx.tag_str_to_id t).isSome) := by
  constructor
  · have hnil : idx.tagData tags = [] := by
      induction tags with
      | nil => rfl
      | cons t ts ih =>
        rw [tagData_cons_none idx t ts (h t (List.mem_cons_self t ts))]
        exact ih fun x hx => h x (List.mem_cons_of_mem t hx)
    simp [Index.get_images_all_tags_lazy, Index.sortedTagData, hnil, List.insertionSort]
  · simp only [Index.get_images_all_tags_lazy, Index.sortedTagData,
      tagData_filter_resolvable]

/-- C1 witness: the amended theorem applied at a concrete index, a query of
unresolvable names, and a mixed query. -/
theorem c1_unresolvable_witness :
    (Index.mk [("a", 1)] [(1, [10])]
        [(10, ⟨"m", Extension.Png, 10, 0⟩)] [(1, 1)]).get_images_all_tags_lazy ["z"] = none
    ∧ (Index.mk [("a", 1)] [(1, [10])]
        [(10, ⟨"m", Extension.Png, 10, 0⟩)] [(1, 1)]).get_images_all_tags_lazy ["a", "z"]
        = (Index.mk [("a", 1)] [(1, [10])]
            [(10, ⟨"m", Extension.Png, 10, 0⟩)] [(1, 1)]).get_images_all_tags_lazy
            (["a", "z"].filter fun t =>
              (alookup (Index.mk [("a", 1)] [(1, [10])]
                [(10, ⟨"m", Extension.Png, 10, 0⟩)] [(1, 1)]).tag_str_to_id t).isSome) :=
  c1_unresolvable_names_dropped
    (Index.mk [("a", 1)] [(1, [10])] [(10, ⟨"m", Extension.Png, 10, 0⟩)] [(1, 1)])
    ["z"] ["a", "z"] (by decide)

/-! ## C8 — idempotent post insertion -/

theorem insertPostTag_tag_str (idx : Index) (pid : Nat) (t : String) :
    (idx.insertPostTag pid t).tag_str_to_id = idx.tag_str_to_id := by
  simp only [Index.insertPostTag]
  split
  · rfl
  · split <;> rfl

theorem insertPostTag_post_map (idx : Index) (pid : Nat) (t : String) :
    (idx.insertPostTag pid t).post_id_to_post = idx.post_id_to_post := by
  simp only [Index.insertPostTag]
  split
  · rfl
  · split <;> rfl

theorem insertPostTag_map_eq (idx : Index) (pid : Nat) (t : String) (tid : Nat)
    (h : alookup idx.tag_str_to_id t.toLower = some tid) :
    (idx.insertPostTag pid t).tag_id_to_post_id
      = ainsert idx.tag_id_to_post_id tid
          (bmInsert pid ((alookup idx.tag_id_to_post_id tid).getD [])) := by
  simp only [Index.insertPostTag, h]
  split <;> rfl

theorem insertPostTag_stable_self (idx : Index) (pid : Nat) (t : String) (tid : Nat)
    (h : alookup idx.tag_str_to_id t.toLower = some tid) :
    (idx.insertPostTag pid t).insertStable pid tid := by
  refine ⟨bmInsert pid ((alookup idx.tag_id_to_post_id tid).getD []), ?_, bmInsert_idem _ _⟩
  rw [insertPostTag_map_eq idx pid t tid h]
  exact alookup_ainsert_self _ _ _

theorem insertPostTag_stable_mono (idx : Index) (pid : Nat) (t : String) (tid : Nat)
    (h : idx.insertStable pid tid) :
    (idx.insertPostTag pid t).insertStable pid tid := by
  obtain ⟨b, hb, hfix⟩ := h
  cases hres : alookup idx.tag_str_to_id t.toLower with
  | none =>
    refine ⟨b, ?_, hfix⟩
    have : idx.insertPostTag pid t = idx := by
      simp only [Index.insertPostTag, hres]
    rw [this]
    exact hb
  | some tid0 =>
    by_cases heq : tid = tid0
    · subst heq
      refine ⟨bmInsert pid ((alookup idx.tag_id_to_post_id tid).getD []), ?_,
        bmInsert_idem _ _⟩
      rw [insertPostTag_map_eq idx pid t tid hres]
      exact alookup_ainsert_self _ _ _
    · refine ⟨b, ?_, hfix⟩
      rw [insertPostTag_map_eq idx pid t tid0 hres,
        alookup_ainsert_ne _ _ _ _ heq]
      exact hb

theorem insertPostTag_of_stable (idx : Index) (pid : Nat) (t : String)
    (h : ∀ tid, alookup idx.tag_str_to_id t.toLower = some tid →
      idx.insertStable pid tid) :
    idx.insertPostTag pid t = idx := by
  cases hres : alookup idx.tag_str_to_id t.toLower with
  | none => simp only [Index.insertPostTag, hres]
  | some tid =>
    obtain ⟨b, hb, hfix⟩ := h tid hres
    simp only [Index.insertPostTag, hres, hb, Option.getD_some]
    rw [if_pos (mem_of_bmInsert_eq pid b hfix), hfix, ainsert_lookup_eq _ _ _ hb]

theorem foldl_insertPostTag_tag_str (pid : Nat) (ts : List String) :
    ∀ idx : Index,
    (ts.foldl (fun i tg => i.insertPostTag pid tg) idx).tag_str_to_id
      = idx.tag_str_to_id := by
  induction ts with
  | nil => intro idx; rfl
  | cons t ts ih =>
    intro idx
    rw [List.foldl_cons, ih, insertPostTag_tag_str]

theorem foldl_insertPostTag_post_map (pid : Nat) (ts : List String) :
    ∀ idx : Index,
    (ts.foldl (fun i tg => i.insertPostTag pid tg) idx).post_id_to_post
      = idx.post_id_to_post := by
  induction ts with
  | nil => intro idx; rfl
  | cons t ts ih =>
    intro idx
    rw [List.foldl_cons, ih, insertPostTag_post_map]

theorem foldl_insertPostTag_stable_mono (pid : Nat) (ts : List String) :
    ∀ (idx : Index) (tid : Nat), idx.insertStable pid tid →
    (ts.foldl (fun i tg => i.insertPostTag pid tg) idx).insertStable pid tid := by
  induction ts with
  | nil => intro idx tid h; exact h
  | cons t ts ih =>
    intro idx tid h
    rw [List.foldl_cons]
    exact ih _ tid (insertPostTag_stable_mono idx pid t tid h)

theorem foldl_insertPostTag_stable (pid : Nat) (ts : List String) :
    ∀ (idx : Index) (t : String), t ∈ ts → ∀ tid : Nat,
    alookup idx.tag_str_to_id t.toLower = some tid →
    (ts.foldl (fun i tg => i.insertPostTag pid tg) idx).insertStable pid tid := by
  induction ts with
  | nil => intro idx t ht; exact absurd ht (List.not_mem_nil t)
  | cons t0 ts ih =>
    intro idx t ht tid h
    rw [List.foldl_cons]
    rcases List.mem_cons.mp ht with rfl | hts
    · exact foldl_insertPostTag_stable_mono pid ts _ tid
        (insertPostTag_stable_self idx pid t tid h)
    · refine ih _ t hts tid ?_
      rw [insertPostTag_tag_str]
      exact h

theorem foldl_insertPostTag_id (pid : Nat) (ts : List String) :
    ∀ idx : Index,
    (∀ t ∈ ts, ∀ tid : Nat, alookup idx.tag_str_to_id t.toLower = some tid →
      idx.insertStable pid tid) →
    ts.foldl (fun i tg => i.insertPostTag pid tg) idx = idx := by
  induction ts with
  | nil => intro idx _; rfl
  | cons t ts ih =>
    intro idx h
    rw [List.foldl_cons,
      insertPostTag_of_stable idx pid t (h t (List.mem_cons_self t ts))]
    exact ih idx fun x hx => h x (List.mem_cons_of_mem t hx)

/-- C8: inserting the same post a second time is the identity on the index
— in particular it changes neither any tag's bitset nor any stored
cardinality, because `bitmap.insert` reports the member as already present
and the frequency counter is bumped only on a fresh insertion. -/
theorem c8_insert_post_idempotent (idx : Index) (p : Post) :
    (idx.insert_post p).insert_post p = idx.insert_post p := by
  have hunfold : ∀ i : Index, Index.insert_post i p
      = { (p.tags.foldl (fun i tg => i.insertPostTag (p.id % u32Mod) tg) i) with
          post_id_to_post :=
            ainsert (p.tags.foldl (fun i tg =>
              i.insertPostTag (p.id % u32Mod) tg) i).post_id_to_post
              (p.id % u32Mod) p.toSimplified } := fun i => rfl
  have hstable : ∀ t ∈ p.tags, ∀ tid : Nat,
      alookup (idx.insert_post p).tag_str_to_id t.toLower = some tid →
      (idx.insert_post p).insertStable (p.id % u32Mod) tid := by
    intro t ht tid h
    have hstr : (idx.insert_post p).tag_str_to_id = idx.tag_str_to_id := by
      rw [hunfold idx]
      exact foldl_insertPostTag_tag_str (p.id % u32Mod) p.tags idx
    rw [hstr] at h
    exact foldl_insertPostTag_stable (p.id % u32Mod) p.tags idx t ht tid h
  have hfold : p.tags.foldl (fun i tg => i.insertPostTag (p.id % u32Mod) tg)
      (idx.insert_post p) = idx.insert_post p :=
    foldl_insertPostTag_id (p.id % u32Mod) p.tags (idx.insert_post p) hstable
  rw [hunfold (idx.insert_post p), hfold]
  have hlook : alookup (idx.insert_post p).post_id_to_post (p.id % u32Mod)
      = some p.toSimplified := by
    rw [hunfold idx]
    exact alookup_ainsert_self _ _ _
  rw [ainsert_lookup_eq _ _ _ hlook]

/-! ## C10 — every bitset member has a stored summary -/

theorem insertPostTag_bitset_sub (idx : Index) (pid : Nat) (t : String)
    (tid : Nat) (b' : List Nat)
    (h : alookup (idx.insertPostTag pid t).tag_id_to_post_id tid = some b') :
    ∀ q ∈ b', q = pid ∨ ∃ b, alookup idx.tag_id_to_post_id tid = some b ∧ q ∈ b := by
  intro q hq
  cases hres : alookup idx.tag_str_to_id t.toLower with
  | none =>
    right
    refine ⟨b', ?_, hq⟩
    have hid : idx.insertPostTag pid t = idx := by
      simp only [Index.insertPostTag, hres]
    rw [← hid]
    exact h
  | some tid0 =>
    rw [insertPostTag_map_eq idx pid t tid0 hres] at h
    by_cases heq : tid = tid0
    · subst heq
      rw [alookup_ainsert_self] at h
      obtain rfl : bmInsert pid ((alookup idx.tag_id_to_post_id tid).getD []) = b' := by
        simpa using h
      rcases (mem_bmInsert q pid _).mp hq with rfl | hmem
      · left; rfl
      · cases hfind : alookup idx.tag_id_to_post_id tid with
        | none =>
          rw [hfind] at hmem
          simp at hmem
        | some b =>
          rw [hfind] at hmem
          right
          exact ⟨b, rfl, by simpa using hmem⟩
    · rw [alookup_ainsert_ne _ _ _ _ heq] at h
      right
      exact ⟨b', h, hq⟩

theorem foldl_insertPostTag_bitset_sub (pid : Nat) (ts : List String) :
    ∀ (idx : Index) (tid : Nat) (b' : List Nat),
    alookup (ts.foldl (fun i tg =>
      i.insertPostTag pid tg) idx).tag_id_to_post_id tid = some b' →
    ∀ q ∈ b', q = pid ∨ ∃ b, alookup idx.tag_id_to_post_id tid = some b ∧ q ∈ b := by
  induction ts with
  | nil =>
    intro idx tid b' h q hq
    right
    exact ⟨b', h, hq⟩
  | cons t ts ih =>
    intro idx tid b' h q hq
    rcases ih _ tid b' (by rwa [List.foldl_cons] at h) q hq with h1 | ⟨b, hb, hqb⟩
    · left; exact h1
    · rcases insertPostTag_bitset_sub idx pid t tid b hb q hqb with h1 | h2
      · left; exact h1
      · right; exact h2

theorem insert_post_postsCovered (idx : Index) (p : Post) (h : idx.postsCovered) :
    (idx.insert_post p).postsCovered := by
  intro tid b' hb' q hq
  have hpostmap : (idx.insert_post p).post_id_to_post
      = ainsert idx.post_id_to_post (p.id % u32Mod) p.toSimplified := by
    show ainsert (p.tags.foldl (fun i tg =>
        i.insertPostTag (p.id % u32Mod) tg) idx).post_id_to_post
        (p.id % u32Mod) p.toSimplified = _
    rw [foldl_insertPostTag_post_map]
  by_cases hqp : q = p.id % u32Mod
  · subst hqp
    rw [hpostmap, alookup_ainsert_self]
    rfl
  · rcases foldl_insertPostTag_bitset_sub (p.id % u32Mod) p.tags idx tid b' hb' q hq
      with h1 | ⟨b, hb, hqb⟩
    · exact absurd h1 hqp
    · rw [hpostmap, alookup_ainsert_ne _ _ _ _ hqp]
      exact h tid b hb q hqb

theorem applyOps_postsCovered (ops : List IndexOp) :
    ∀ idx : Index, idx.postsCovered → (idx.applyOps ops).postsCovered := by
  induction ops with
  | nil => intro idx h; exact h
  | cons op ops ih =>
    intro idx h
    refine ih (idx.applyOp op) ?_
    cases op with
    | tag t => exact fun tid b hb q hq => h tid b hb q hq
    | post p => exact insert_post_postsCovered idx p h

/-- C10: after any sequence of `insert_tag` / `insert_post` operations on
an initially empty index, every post id contained in any tag's bitset has
an entry in the post-id-to-summary map, so the lazy summary-mapping step of
a query never drops a matched post id. -/
theorem c10_bitset_ids_have_summaries (ops : List IndexOp) :
    (Index.empty.applyOps ops).postsCovered :=
  applyOps_postsCovered ops Index.empty
    (fun tid b hb => by simp [alookup, Index.empty] at hb)

/-! ## C7 — query correctness for fully resolvable requests -/

theorem intersectLoop_some_mem (idx : Index) (l : List (Nat × Nat)) :
    ∀ acc r : List Nat, idx.intersectLoop acc l = some r →
    ∀ id : Nat, id ∈ r ↔ id ∈ acc ∧ ∀ p ∈ l, id ∈ idx.bitsetOf p.1 := by
  induction l with
  | nil =>
    intro acc r h id
    obtain rfl : acc = r := by simpa [Index.intersectLoop] using h
    simp
  | cons p rest ih =>
    intro acc r h id
    obtain ⟨tid, f⟩ := p
    simp only [Index.intersectLoop] at h
    cases hfind : alookup idx.tag_id_to_post_id tid with
    | none => rw [hfind] at h; exact absurd h (by simp)
    | some s =>
      simp only [hfind] at h
      by_cases hemp : bmInter acc s = []
      · rw [if_pos hemp] at h
        exact absurd h (by simp)
      · rw [if_neg hemp] at h
        have hstep := ih (bmInter acc s) r h id
        have hbs : idx.bitsetOf tid = s := by
          rw [Index.bitsetOf, hfind]
          rfl
        rw [hstep, mem_bmInter, List.forall_mem_cons, hbs]
        tauto

theorem intersectLoop_none_mem (idx : Index) (l : List (Nat × Nat)) :
    ∀ acc : List Nat, idx.intersectLoop acc l = none →
    ∀ id : Nat, ¬(id ∈ acc ∧ ∀ p ∈ l, id ∈ idx.bitsetOf p.1) := by
  induction l with
  | nil => intro acc h; simp [Index.intersectLoop] at h
  | cons p rest ih =>
    intro acc h id hcontra
    obtain ⟨tid, f⟩ := p
    obtain ⟨hacc, hall⟩ := hcontra
    have hhd : id ∈ idx.bitsetOf tid := hall (tid, f) (List.mem_cons_self _ _)
    simp only [Index.intersectLoop] at h
    cases hfind : alookup idx.tag_id_to_post_id tid with
    | none =>
      rw [Index.bitsetOf, hfind] at hhd
      simp at hhd
    | some s =>
      simp only [hfind] at h
      have hins : id ∈ bmInter acc s := by
        refine (mem_bmInter id acc s).mpr ⟨hacc, ?_⟩
        rw [Index.bitsetOf, hfind] at hhd
        simpa using hhd
      by_cases hemp : bmInter acc s = []
      · rw [hemp] at hins
        simp at hins
      · rw [if_neg hemp] at h
        exact ih (bmInter acc s) h id
          ⟨hins, fun q hq => hall q (List.mem_cons_of_mem _ hq)⟩

theorem mem_tagData (idx : Index) (tags : List String) (tid f : Nat) :
    (tid, f) ∈ idx.tagData tags
      ↔ ∃ t ∈ tags, alookup idx.tag_str_to_id t = some tid
          ∧ f = (alookup idx.tag_id_freq tid).getD u32Max := by
  simp only [Index.tagData, List.mem_filterMap, Option.map_eq_some']
  constructor
  · rintro ⟨t, ht, tid', htid, heq⟩
    obtain ⟨rfl, rfl⟩ : tid' = tid ∧ (alookup idx.tag_id_freq tid').getD u32Max = f := by
      simpa [Prod.ext_iff] using heq
    exact ⟨t, ht, htid, rfl⟩
  · rintro ⟨t, ht, htid, rfl⟩
    exact ⟨t, ht, tid, htid, rfl⟩

theorem mem_sortedTagData (idx : Index) (tags : List String) (pr : Nat × Nat) :
    pr ∈ idx.sortedTagData tags ↔ pr ∈ idx.tagData tags :=
  (List.perm_insertionSort byFreq (idx.tagData tags)).mem_iff

theorem inAllTags_iff_sorted (idx : Index) (tags : List String) (id : Nat) :
    idx.inAllTags tags id ↔ ∀ p ∈ idx.sortedTagData tags, id ∈ idx.bitsetOf p.1 := by
  constructor
  · intro h p hp
    obtain ⟨tid, f⟩ := p
    obtain ⟨t, ht, htid, _⟩ := (mem_tagData idx tags tid f).mp
      ((mem_sortedTagData idx tags (tid, f)).mp hp)
    exact h t ht tid htid
  · intro h t ht tid htid
    have hmem : (tid, (alookup idx.tag_id_freq tid).getD u32Max) ∈ idx.tagData tags :=
      (mem_tagData idx tags tid _).mpr ⟨t, ht, htid, rfl⟩
    exact h _ ((mem_sortedTagData idx tags _).mpr hmem)

theorem sortedTagData_ne_nil (idx : Index) (tags : List String)
    (hres : ∀ t ∈ tags, (alookup idx.tag_str_to_id t).isSome = true)
    (hne : tags ≠ []) :
    idx.sortedTagData tags ≠ [] := by
  cases tags with
  | nil => exact absurd rfl hne
  | cons t ts =>
    obtain ⟨tid, htid⟩ := Option.isSome_iff_exists.mp
      (hres t (List.mem_cons_self t ts))
    intro hnil
    have hmem : (tid, (alookup idx.tag_id_freq tid).getD u32Max)
        ∈ idx.sortedTagData (t :: ts) :=
      (mem_sortedTagData idx (t :: ts) _).mpr
        ((mem_tagData idx (t :: ts) tid _).mpr
          ⟨t, List.mem_cons_self t ts, htid, rfl⟩)
    rw [hnil] at hmem
    exact absurd hmem (List.not_mem_nil _)

/-- C7: for a query whose requested names all resolve, the resolved tag
data is processed in ascending order of stored frequency (the rarest tag
seeds the intersection), and the query yields exactly the stored summaries
of the post ids lying in every resolved tag's bitset: any `some` result
enumerates precisely those ids' summaries, and a `none` result (including
every short-circuit) can occur only when no post id lies in all the
resolved bitsets. -/
theorem c7_search_all_resolvable (idx : Index) (tags : List String)
    (hres : ∀ t ∈ tags, (alookup idx.tag_str_to_id t).isSome = true)
    (hne : tags ≠ []) :
    List.Sorted byFreq (idx.sortedTagData tags)
    ∧ (∀ l, idx.get_images_all_tags_lazy tags = some l →
        ∀ s, s ∈ l ↔ ∃ id, idx.inAllTags tags id
            ∧ alookup idx.post_id_to_post id = some s)
    ∧ (idx.get_images_all_tags_lazy tags = none → ∀ id, ¬ idx.inAllTags tags id) := by
  refine ⟨List.sorted_insertionSort byFreq (idx.tagData tags), ?_⟩
  cases hsd : idx.sortedTagData tags with
  | nil => exact absurd hsd (sortedTagData_ne_nil idx tags hres hne)
  | cons p rest =>
    obtain ⟨t0, f0⟩ := p
    have hhead : (t0, f0) ∈ idx.tagData tags :=
      (mem_sortedTagData idx tags (t0, f0)).mp (hsd ▸ List.mem_cons_self _ _)
    obtain ⟨t, ht, ht0, _⟩ := (mem_tagData idx tags t0 f0).mp hhead
    cases hseed : alookup idx.tag_id_to_post_id t0 with
    | none =>
      have hnone : idx.get_images_all_tags_lazy tags = none := by
        simp [Index.get_images_all_tags_lazy, hsd, hseed]
      refine ⟨?_, ?_⟩
      · intro l hl
        rw [hnone] at hl
        exact absurd hl (by simp)
      · intro _ id hin
        have : id ∈ idx.bitsetOf t0 := hin t ht t0 ht0
        rw [Index.bitsetOf, hseed] at this
        simp at this
    | some seed =>
      have hseedbs : idx.bitsetOf t0 = seed := by
        rw [Index.bitsetOf, hseed]
        rfl
      cases hloop : idx.intersectLoop seed rest with
      | none =>
        have hnone : idx.get_images_all_tags_lazy tags = none := by
          simp [Index.get_images_all_tags_lazy, hsd, hseed, hloop]
        refine ⟨?_, ?_⟩
        · intro l hl
          rw [hnone] at hl
          exact absurd hl (by simp)
        · intro _ id hin
          have hall := (inAllTags_iff_sorted idx tags id).mp hin
          rw [hsd, List.forall_mem_cons] at hall
          exact intersectLoop_none_mem idx rest seed hloop id
            ⟨hseedbs ▸ hall.1, hall.2⟩
      | some result =>
        have hsome : idx.get_images_all_tags_lazy tags
            = some (result.filterMap fun id => alookup idx.post_id_to_post id) := by
          simp [Index.get_images_all_tags_lazy, hsd, hseed, hloop]
        refine ⟨?_, ?_⟩
        · intro l hl s
          rw [hsome] at hl
          obtain rfl : result.filterMap (fun id => alookup idx.post_id_to_post id) = l := by
            simpa using hl
          rw [List.mem_filterMap]
          have hmemr := intersectLoop_some_mem idx rest seed result hloop
          constructor
          · rintro ⟨id, hid, hsum⟩
            refine ⟨id, ?_, hsum⟩
            apply (inAllTags_iff_sorted idx tags id).mpr
            rw [hsd, List.forall_mem_cons]
            obtain ⟨ha, hr⟩ := (hmemr id).mp hid
            exact ⟨hseedbs ▸ ha, hr⟩
          · rintro ⟨id, hin, hsum⟩
            refine ⟨id, ?_, hsum⟩
            apply (hmemr id).mpr
            have hall := (inAllTags_iff_sorted idx tags id).mp hin
            rw [hsd, List.forall_mem_cons] at hall
            exact ⟨hseedbs ▸ hall.1, hall.2⟩
        · intro hcontra
          rw [hsome] at hcontra
          exact absurd hcontra (by simp)

/-- C7 witness: the amended statement instantiated at the spec's worked
example — tag `a` with posts 1,2,3 (cardinality 3) and tag `b` with posts
2,3 (cardinality 2). -/
theorem c7_search_witness :
    List.Sorted byFreq
      ((Index.mk [("a", 1), ("b", 2)] [(1, [1, 2, 3]), (2, [2, 3])]
        [(1, ⟨"m", Extension.Png, 1, 0⟩), (2, ⟨"m", Extension.Png, 2, 0⟩),
         (3, ⟨"m", Extension.Png, 3, 0⟩)] [(1, 3), (2, 2)]).sortedTagData ["a", "b"])
    ∧ (∀ l, (Index.mk [("a", 1), ("b", 2)] [(1, [1, 2, 3]), (2, [2, 3])]
        [(1, ⟨"m", Extension.Png, 1, 0⟩), (2, ⟨"m", Extension.Png, 2, 0⟩),
         (3, ⟨"m", Extension.Png, 3, 0⟩)] [(1, 3), (2, 2)]).get_images_all_tags_lazy
          ["a", "b"] = some l →
        ∀ s, s ∈ l ↔ ∃ id, (Index.mk [("a", 1), ("b", 2)] [(1, [1, 2, 3]), (2, [2, 3])]
          [(1, ⟨"m", Extension.Png, 1, 0⟩), (2, ⟨"m", Extension.Png, 2, 0⟩),
           (3, ⟨"m", Extension.Png, 3, 0⟩)] [(1, 3), (2, 2)]).inAllTags ["a", "b"] id
            ∧ alookup (Index.mk [("a", 1), ("b", 2)] [(1, [1, 2, 3]), (2, [2, 3])]
              [(1, ⟨"m", Extension.Png, 1, 0⟩), (2, ⟨"m", Extension.Png, 2, 0⟩),
               (3, ⟨"m", Extension.Png, 3, 0⟩)] [(1, 3), (2, 2)]).post_id_to_post id
              = some s)
    ∧ ((Index.mk [("a", 1), ("b", 2)] [(1, [1, 2, 3]), (2, [2, 3])]
        [(1, ⟨"m", Extension.Png, 1, 0⟩), (2, ⟨"m", Extension.Png, 2, 0⟩),
         (3, ⟨"m", Extension.Png, 3, 0⟩)] [(1, 3), (2, 2)]).get_images_all_tags_lazy
          ["a", "b"] = none →
        ∀ id, ¬ (Index.mk [("a", 1), ("b", 2)] [(1, [1, 2, 3]), (2, [2, 3])]
          [(1, ⟨"m", Extension.Png, 1, 0⟩), (2, ⟨"m", Extension.Png, 2, 0⟩),
           (3, ⟨"m", Extension.Png, 3, 0⟩)] [(1, 3), (2, 2)]).inAllTags ["a", "b"] id) :=
  c7_search_all_resolvable
    (Index.mk [("a", 1), ("b", 2)] [(1, [1, 2, 3]), (2, [2, 3])]
      [(1, ⟨"m", Extension.Png, 1, 0⟩), (2, ⟨"m", Extension.Png, 2, 0⟩),
       (3, ⟨"m", Extension.Png, 3, 0⟩)] [(1, 3), (2, 2)])
    ["a", "b"] (by decide) (by decide)

/-- C10 witness: the theorem applied to a concrete build sequence (one tag,
one post carrying that tag plus an unknown tag name). -/
theorem c10_bitset_ids_witness :
    (Index.empty.applyOps
      [IndexOp.tag ⟨1, "A", 0, .Descriptive, false⟩,
       IndexOp.post ⟨7, 0, "m", "x.png", .Safe, ["a", "zzz"]⟩]).postsCovered :=
  c10_bitset_ids_have_summaries
    [IndexOp.tag ⟨1, "A", 0, .Descriptive, false⟩,
     IndexOp.post ⟨7, 0, "m", "x.png", .Safe, ["a", "zzz"]⟩]
